import Mathlib

/-!
Verification of the `today` CLI (jdockerty/today): a shallow embedding of its
commit-selection engine and aggregator, translated from the Go source
(`getCommitMessages`, `getRepositories`, `getBaseDirectoryName`,
`containsAuthor` and the helpers they call), together with theorems settling
the specification's claims about them.

Modelling conventions:
- instants (`time.Time`) are integers; `a.After(b)` is strict `b < a`;
- a commit walk (`object.CommitIter`) is a finite list of commits consumed
  from the front; `Next` on an exhausted walk is the end-of-history error;
- fallible Go code returns `Except GitError`;
- the Go `map[string][]string` is a function `String → Option (List String)`
  (`none` = key absent, mirroring that a Go map distinguishes a missing key
  from one holding an empty slice only via the comma-ok idiom used by tests);
- `time.Now()` is a clock stream `Nat → Int`: the i-th read of the clock
  returns `clock i` (the source reads the clock once per directory).
-/

/-- A commit as the engine sees it: author name, author timestamp (UTC
instant, modelled as an integer) and the message text. -/
structure Commit where
  authorName : String
  time : Int
  message : String
deriving DecidableEq, Repr

/-- The failure points of the source, by provenance: `git.PlainOpen` failing,
`repo.Head()` failing, `repo.Log` failing, and `cIter.Next()` failing (go-git
returns `io.EOF` once the walk is exhausted). -/
inductive GitError where
  | openFail
  | headFail
  | logFail
  | iterEnd
deriving DecidableEq, Repr

/-- An opened repository: whether `Head()` and `Log` succeed, and the commit
walk `Log` yields (head first, ancestors after). -/
structure Repo where
  headOk : Bool
  logOk : Bool
  walk : List Commit
deriving DecidableEq, Repr

/-- `strings.Cut(s, "\n")` keeping only the part before the first line
break, or the whole string when it has none (the `short` rendering). -/
def cutNewline (s : String) : String :=
  String.mk (s.data.takeWhile (fun c => !(c == '\n')))

/-- Occurrence of `p` as a contiguous run inside `s`, on character lists
(`strings.Contains`); the empty needle occurs in every string. -/
def containsSub (p : List Char) : List Char → Bool
  | [] => p.isEmpty
  | a :: t => p.isPrefixOf (a :: t) || containsSub p t

/-- `strings.Contains(s, sub)`. -/
def strContains (s sub : String) : Bool :=
  containsSub sub.data s.data

/-- `containsAuthor` from the source: whether the commit's author name
contains the provided author text. -/
def containsAuthor (c : Commit) (author : String) : Bool :=
  strContains c.authorName author

/-- The body of the selection loop of `getCommitMessages`: while the current
commit's timestamp is strictly after `timeSince`, fetch the successor from
the iterator (failing with the iterator's error when it is exhausted), skip
the current commit when an author filter is set and does not occur in its
author name, and otherwise record its message (first line only when `short`).
An error glues through the whole call because the source returns `nil, err`,
discarding everything collected so far. -/
def selectLoop (author : String) (short : Bool) (timeSince : Int) :
    Commit → List Commit → Except GitError (List String)
  | current, rest =>
    if timeSince < current.time then
      match rest with
      | [] => Except.error GitError.iterEnd
      | next :: restTail =>
        if author != "" && !(containsAuthor current author) then
          selectLoop author short timeSince next restTail
        else
          match selectLoop author short timeSince next restTail with
          | Except.error e => Except.error e
          | Except.ok msgs =>
            Except.ok ((if short then cutNewline current.message else current.message) :: msgs)
    else
      Except.ok []

/-- One directory's selection given an already-produced walk: the initial
`cIter.Next()` (failing on an empty walk), then the loop. -/
def runSelection (author : String) (short : Bool) (timeSince : Int) :
    List Commit → Except GitError (List String)
  | [] => Except.error GitError.iterEnd
  | c :: rest => selectLoop author short timeSince c rest

/-- One directory of `getCommitMessages` after the map bookkeeping:
`repo.Head()`, `repo.Log`, reading the clock into `now`, computing
`timeSince := now.Add(-since)` and running the walk. -/
def selectDir (author : String) (short : Bool) (since now : Int) (r : Repo) :
    Except GitError (List String) :=
  if r.headOk then
    if r.logOk then runSelection author short (now - since) r.walk
    else Except.error GitError.logFail
  else Except.error GitError.headFail

/-- `filepath.Base` on a Unix path: empty path gives ".", trailing slashes
are stripped, everything up to the final slash is dropped, and an
all-slashes path gives "/". -/
def baseName (p : String) : String :=
  if p == "" then "."
  else
    let stripped := ((p.data.reverse.dropWhile (fun c => c == '/')).reverse)
    let b := ((stripped.reverse.takeWhile (fun c => !(c == '/'))).reverse)
    if b.isEmpty then "/" else String.mk b

/-- `getBaseDirectoryName` from the source: the base of the directory, with
"." and "./" resolved through the current working directory (`syscall.Getwd`
is modelled as the supplied `cwd`, assumed to succeed). -/
def getBaseDirectoryName (cwd p : String) : String :=
  if p == "./" || p == "." then baseName cwd else baseName p

/-- The Go `map[string][]string`, as lookup: `none` when the key is absent. -/
def MsgMap : Type := String → Option (List String)

/-- `m[k] = v` on a Go map: set, overwriting any previous entry. -/
def mapSet (m : MsgMap) (k : String) (v : List String) : MsgMap :=
  fun x => if x == k then some v else m x

/-- `m[k] = append(m[k], s)` on a Go map: a missing key reads as the empty
slice, so appending to it creates the entry. -/
def mapAppend (m : MsgMap) (k : String) (s : String) : MsgMap :=
  fun x => if x == k then some ((m k).getD [] ++ [s]) else m x

/-- The appends a directory's loop performs one message at a time, in order;
batching them after the walk is equivalent because an error discards the
whole map. -/
def mapAppendList (m : MsgMap) (k : String) : List String → MsgMap
  | [] => m
  | s :: ss => mapAppendList (mapAppend m k s) k ss

/-- Reads a run result at one key: the per-directory entry when the run
succeeded, `none` when the run failed (no mapping is returned). -/
def lookupResult (r : Except GitError MsgMap) (k : String) : Option (List String) :=
  match r with
  | Except.ok m => m k
  | Except.error _ => none

/-- Reads a run result's error, if the run failed. -/
def errorOf (r : Except GitError MsgMap) : Option GitError :=
  match r with
  | Except.ok _ => none
  | Except.error e => some e

/-- The directory loop of `getCommitMessages`, processing the map's entries
in order: sanitise the directory name, initialise the map under the
sanitised name, walk the repository with `now` read from the clock for this
directory, and append the selected messages under the raw directory key
(exactly as the source's `msgs[dir] = append(msgs[dir], ...)` lines do,
even though initialisation used `msgs[sanitisedDir]`). -/
def getCommitMessagesAux (clock : Nat → Int) (author : String) (short : Bool)
    (since : Int) (cwd : String) :
    Nat → MsgMap → List (String × Repo) → Except GitError MsgMap
  | _, m, [] => Except.ok m
  | i, m, (dir, r) :: rest =>
    let m1 := mapSet m (getBaseDirectoryName cwd dir) []
    match selectDir author short since (clock i) r with
    | Except.error e => Except.error e
    | Except.ok msgs =>
      getCommitMessagesAux clock author short since cwd (i + 1) (mapAppendList m1 dir msgs) rest

/-- `getCommitMessages` from the source: map every requested directory to its
selected messages, failing the whole run on the first error. -/
def getCommitMessages (clock : Nat → Int) (author : String) (short : Bool)
    (since : Int) (cwd : String) (dirs : List (String × Repo)) :
    Except GitError MsgMap :=
  getCommitMessagesAux clock author short since cwd 0 (fun _ => none) dirs

/-- `getRepositories` from the source: open every directory, returning the
first open failure (`none` models a directory `git.PlainOpen` rejects). -/
def getRepositories : List (Option Repo) → Except GitError (List Repo)
  | [] => Except.ok []
  | none :: _ => Except.error GitError.openFail
  | some r :: rest => (getRepositories rest).map (fun l => r :: l)

/-- The specification's wording of the aggregator ("timeThreshold ...
computed once per run so all directories are compared against a single fixed
threshold, not a per-call now"): identical to `getCommitMessagesAux` except
that one run-level `now` replaces the per-directory clock read. -/
def getCommitMessagesSpecOnceAux (now : Int) (author : String) (short : Bool)
    (since : Int) (cwd : String) :
    MsgMap → List (String × Repo) → Except GitError MsgMap
  | m, [] => Except.ok m
  | m, (dir, r) :: rest =>
    let m1 := mapSet m (getBaseDirectoryName cwd dir) []
    match selectDir author short since now r with
    | Except.error e => Except.error e
    | Except.ok msgs =>
      getCommitMessagesSpecOnceAux now author short since cwd (mapAppendList m1 dir msgs) rest

/-- The once-per-run variant of `getCommitMessages`, following the
specification's words; compared against the source's behaviour in C8. -/
def getCommitMessagesSpecOnce (now : Int) (author : String) (short : Bool)
    (since : Int) (cwd : String) (dirs : List (String × Repo)) :
    Except GitError MsgMap :=
  getCommitMessagesSpecOnceAux now author short since cwd (fun _ => none) dirs

instance {ε α : Type} [DecidableEq ε] [DecidableEq α] : DecidableEq (Except ε α) := fun x y =>
  match x, y with
  | Except.ok a, Except.ok b =>
    if h : a = b then Decidable.isTrue (congrArg Except.ok h)
    else Decidable.isFalse (fun hc => h (Except.ok.inj hc))
  | Except.error a, Except.error b =>
    if h : a = b then Decidable.isTrue (congrArg Except.error h)
    else Decidable.isFalse (fun hc => h (Except.error.inj hc))
  | Except.ok _, Except.error _ => Decidable.isFalse (fun hc => Except.noConfusion hc)
  | Except.error _, Except.ok _ => Decidable.isFalse (fun hc => Except.noConfusion hc)

/-- A commit survives the author filter: no filter set, or the filter occurs
in the author name (the negation of the loop's skip condition). -/
def keepCommit (author : String) (c : Commit) : Bool :=
  author == "" || containsAuthor c author

/-- How an included commit's message is rendered, per the `short` flag. -/
def renderMsg (short : Bool) (c : Commit) : String :=
  if short then cutNewline c.message else c.message

/-- The loop's skip condition is the negation of `keepCommit`. -/
lemma keepCommit_eq_not_skip (author : String) (c : Commit) :
    keepCommit author c = !(author != "" && !(containsAuthor c author)) := by
  cases h : author == "" <;> cases h2 : containsAuthor c author <;>
    simp [keepCommit, bne, h, h2]

/-- Reaching a commit at or before the threshold stops the loop with the
(empty continuation of the) collected messages, never touching the rest. -/
lemma selectLoop_stop (author : String) (short : Bool) (ts : Int) (cur : Commit)
    (rest : List Commit) (h : ¬ ts < cur.time) :
    selectLoop author short ts cur rest = Except.ok [] := by
  cases rest <;> simp [selectLoop, h]

/-- Master characterisation of the loop on a walk whose strictly-in-window
prefix is `cur :: pre` followed by a first boundary commit `b`: the loop
succeeds with exactly the filtered prefix's rendered messages, and the tail
beyond `b` plays no part. -/
lemma selectLoop_append (author : String) (short : Bool) (ts : Int) :
    ∀ (pre : List Commit) (cur b : Commit) (tail : List Commit),
      (∀ c ∈ cur :: pre, ts < c.time) → ¬ ts < b.time →
      selectLoop author short ts cur (pre ++ b :: tail) =
        Except.ok (((cur :: pre).filter (keepCommit author)).map (renderMsg short)) := by
  intro pre
  induction pre with
  | nil =>
    intro cur b tail hin hb
    have hcur : ts < cur.time := hin cur (List.mem_cons_self cur [])
    simp only [List.nil_append, selectLoop, if_pos hcur]
    cases hskip : (author != "" && !(containsAuthor cur author)) with
    | true =>
      have hkeep : keepCommit author cur = false := by
        rw [keepCommit_eq_not_skip, hskip]; rfl
      simp [selectLoop_stop author short ts b tail hb, List.filter_cons, hkeep]
    | false =>
      have hkeep : keepCommit author cur = true := by
        rw [keepCommit_eq_not_skip, hskip]; rfl
      simp [selectLoop_stop author short ts b tail hb, List.filter_cons, hkeep, renderMsg]
  | cons p pre ih =>
    intro cur b tail hin hb
    have hcur : ts < cur.time := hin cur (List.mem_cons_self cur (p :: pre))
    have hin2 : ∀ c ∈ p :: pre, ts < c.time := fun c hc => hin c (List.mem_cons_of_mem _ hc)
    have ihres := ih p b tail hin2 hb
    simp only [List.cons_append, selectLoop, if_pos hcur]
    cases hskip : (author != "" && !(containsAuthor cur author)) with
    | true =>
      have hkeep : keepCommit author cur = false := by
        rw [keepCommit_eq_not_skip, hskip]; rfl
      simp [ihres, List.filter_cons, hkeep]
    | false =>
      have hkeep : keepCommit author cur = true := by
        rw [keepCommit_eq_not_skip, hskip]; rfl
      simp [ihres, List.filter_cons, hkeep, renderMsg]

/-- `runSelection` on a walk decomposed at its first boundary commit. -/
lemma runSelection_spec (author : String) (short : Bool) (ts : Int)
    (pre : List Commit) (b : Commit) (tail : List Commit)
    (hpre : ∀ c ∈ pre, ts < c.time) (hb : ¬ ts < b.time) :
    runSelection author short ts (pre ++ b :: tail) =
      Except.ok ((pre.filter (keepCommit author)).map (renderMsg short)) := by
  cases pre with
  | nil =>
    simp [runSelection, selectLoop_stop author short ts b tail hb]
  | cons c pre =>
    have h1 : ∀ x ∈ c :: pre, ts < x.time := hpre
    simpa [runSelection] using selectLoop_append author short ts pre c b tail h1 hb

/-- A walk that is still strictly inside the window when it runs out makes
the loop ask the exhausted iterator for one more commit and fail. -/
lemma selectLoop_allIn (author : String) (short : Bool) (ts : Int) :
    ∀ (rest : List Commit) (cur : Commit), ts < cur.time → (∀ c ∈ rest, ts < c.time) →
      selectLoop author short ts cur rest = Except.error GitError.iterEnd := by
  intro rest
  induction rest with
  | nil =>
    intro cur hcur _
    simp [selectLoop, hcur]
  | cons next rest ih =>
    intro cur hcur hrest
    have hnext : ts < next.time := hrest next (List.mem_cons_self next rest)
    have hrest2 : ∀ c ∈ rest, ts < c.time := fun c hc => hrest c (List.mem_cons_of_mem _ hc)
    have ihres := ih next hnext hrest2
    simp only [selectLoop, if_pos hcur]
    cases hskip : (author != "" && !(containsAuthor cur author)) with
    | true => simp [ihres]
    | false => simp [ihres]

/-- `runSelection` on a non-empty fully-in-window walk fails with the
iterator's end-of-history error. -/
lemma runSelection_allIn (author : String) (short : Bool) (ts : Int)
    (walk : List Commit) (hne : walk ≠ []) (hall : ∀ c ∈ walk, ts < c.time) :
    runSelection author short ts walk = Except.error GitError.iterEnd := by
  cases walk with
  | nil => exact absurd rfl hne
  | cons c rest =>
    have hc : ts < c.time := hall c (List.mem_cons_self c rest)
    have hrest : ∀ x ∈ rest, ts < x.time := fun x hx => hall x (List.mem_cons_of_mem _ hx)
    simpa [runSelection] using selectLoop_allIn author short ts rest c hc hrest

/-- Splits a list at the first element falsifying `p`, when one exists. -/
lemma exists_firstFail {α : Type} (p : α → Bool) :
    ∀ l : List α, (∃ x ∈ l, p x = false) →
      ∃ pre b tail, l = pre ++ b :: tail ∧ (∀ c ∈ pre, p c = true) ∧ p b = false := by
  intro l
  induction l with
  | nil => intro h; simp at h
  | cons a l ih =>
    intro h
    cases ha : p a with
    | false =>
      exact ⟨[], a, l, by simp, by simp, ha⟩
    | true =>
      obtain ⟨x, hx, hpx⟩ := h
      have hxl : x ∈ l := by
        cases List.mem_cons.mp hx with
        | inl heq => rw [heq] at hpx; rw [ha] at hpx; cases hpx
        | inr h2 => exact h2
      obtain ⟨pre, b, tail, heq, hpre, hb⟩ := ih ⟨x, hxl, hpx⟩
      exact ⟨a :: pre, b, tail, by simp [heq], by
        intro c hc
        cases List.mem_cons.mp hc with
        | inl h2 => rw [h2]; exact ha
        | inr h2 => exact hpre c h2, hb⟩

/-- With no author filter, the filter keeps every commit. -/
lemma filter_keep_empty_author : ∀ l : List Commit, l.filter (keepCommit "") = l := by
  intro l
  induction l with
  | nil => rfl
  | cons c l ih => simp [List.filter_cons, keepCommit, ih]

/-- With a non-empty author filter, keeping a commit is exactly containment
of the filter in its author name. -/
lemma filter_keep_eq_contains (author : String) (h : author ≠ "") :
    ∀ l : List Commit, l.filter (keepCommit author) =
      l.filter (fun c => containsAuthor c author) := by
  intro l
  have hbe : (author == "") = false := by
    cases hc : author == "" with
    | true => exact absurd (by simpa using hc) h
    | false => rfl
  induction l with
  | nil => rfl
  | cons c l ih => simp [List.filter_cons, keepCommit, hbe, ih]

/-- With a constant clock, the first directory whose selection fails aborts
the whole aggregation with that failure, whatever was accumulated. -/
lemma gcmAux_error_const (now : Int) (author : String) (short : Bool)
    (since : Int) (cwd : String) :
    ∀ (pre : List (String × Repo)) (i : Nat) (m : MsgMap) (d : String) (r : Repo)
      (rest : List (String × Repo)) (e : GitError),
      (∀ x ∈ pre, ∃ msgs, selectDir author short since now x.2 = Except.ok msgs) →
      selectDir author short since now r = Except.error e →
      getCommitMessagesAux (fun _ => now) author short since cwd i m
        (pre ++ (d, r) :: rest) = Except.error e := by
  intro pre
  induction pre with
  | nil =>
    intro i m d r rest e _ hfail
    simp [getCommitMessagesAux, hfail]
  | cons x pre ih =>
    intro i m d r rest e hpre hfail
    obtain ⟨msgs, hok⟩ := hpre x (List.mem_cons_self x pre)
    obtain ⟨d1, r1⟩ := x
    simp only [List.cons_append, getCommitMessagesAux, hok]
    exact ih (i + 1) _ d r rest e (fun y hy => hpre y (List.mem_cons_of_mem _ hy)) hfail

/-- A head/log-healthy repository whose whole walk is strictly inside the
window makes its directory's selection fail at the exhausted iterator. -/
lemma selectDir_allIn (author : String) (short : Bool) (since now : Int) (r : Repo)
    (hhead : r.headOk = true) (hlog : r.logOk = true) (hne : r.walk ≠ [])
    (hall : ∀ c ∈ r.walk, now - since < c.time) :
    selectDir author short since now r = Except.error GitError.iterEnd := by
  simp [selectDir, hhead, hlog,
    runSelection_allIn author short (now - since) r.walk hne hall]

/-- `getRepositories` fails with the open error of the first directory that
does not open, whatever follows it. -/
lemma getRepositories_firstNone :
    ∀ (pre rest : List (Option Repo)), (∀ x ∈ pre, x ≠ none) →
      getRepositories (pre ++ none :: rest) = Except.error GitError.openFail := by
  intro pre
  induction pre with
  | nil => intro rest _; simp [getRepositories]
  | cons x pre ih =>
    intro rest hpre
    cases x with
    | none => exact absurd rfl (hpre none (List.mem_cons_self _ _))
    | some r =>
      simp only [List.cons_append, getRepositories, List.append_eq]
      rw [ih rest (fun y hy => hpre y (List.mem_cons_of_mem _ hy))]
      rfl

/-- Under a clock that never advances, the source's per-directory threshold
reads coincide with the specification's single run-level threshold. -/
lemma gcmAux_const_eq_once (now : Int) (author : String) (short : Bool)
    (since : Int) (cwd : String) :
    ∀ (dirs : List (String × Repo)) (i : Nat) (m : MsgMap),
      getCommitMessagesAux (fun _ => now) author short since cwd i m dirs =
        getCommitMessagesSpecOnceAux now author short since cwd m dirs := by
  intro dirs
  induction dirs with
  | nil => intro i m; rfl
  | cons x dirs ih =>
    intro i m
    obtain ⟨d, r⟩ := x
    simp only [getCommitMessagesAux, getCommitMessagesSpecOnceAux]
    cases h : selectDir author short since now r with
    | error e => simp [h]
    | ok msgs => simp [h, ih]

/-- Claim C1 (as stated, counterexample): a directory whose entire history
lies strictly inside the window does not succeed — the selection loop asks
the exhausted iterator for a successor and the run fails with the iterator's
end-of-history error, returning no sequence at all for the directory. -/
theorem allInWindow_run_fails_counterexample :
    errorOf (getCommitMessages (fun _ => 10) "" false 10 "/home/u"
      [("proj", ⟨true, true, [⟨"u", 5, "m"⟩]⟩)]) = some GitError.iterEnd
    ∧ lookupResult (getCommitMessages (fun _ => 10) "" false 10 "/home/u"
      [("proj", ⟨true, true, [⟨"u", 5, "m"⟩]⟩)]) "proj" = none := by
  exact ⟨by decide, by decide⟩

/-- Claim C1 (amended): for every non-empty commit walk with non-increasing
timestamps, no author filter, and at least one commit not strictly after the
threshold, the engine succeeds and returns a sequence whose length is the
number of commits strictly after the threshold. -/
theorem noFilter_length_counts_inWindow (short : Bool) (ts : Int)
    (walk : List Commit) (hne : walk ≠ [])
    (hmono : walk.Pairwise (fun a b => b.time ≤ a.time))
    (hbound : ∃ c ∈ walk, ¬ ts < c.time) :
    ∃ msgs, runSelection "" short ts walk = Except.ok msgs ∧
      msgs.length = walk.countP (fun c => decide (ts < c.time)) := by
  obtain ⟨x, hx, hpx⟩ := hbound
  obtain ⟨pre, b, tail, heq, hpre, hb⟩ :=
    exists_firstFail (fun c => decide (ts < c.time)) walk ⟨x, hx, by simpa using hpx⟩
  have hpre2 : ∀ c ∈ pre, ts < c.time := fun c hc => by simpa using hpre c hc
  have hb2 : ¬ ts < b.time := by simpa using hb
  subst heq
  refine ⟨(pre.filter (keepCommit "")).map (renderMsg short),
    runSelection_spec "" short ts pre b tail hpre2 hb2, ?_⟩
  have hmono2 := (List.pairwise_append.mp hmono).2.1
  have htailmono := (List.pairwise_cons.mp hmono2).1
  have htail : ∀ c ∈ tail, ¬ ts < c.time := by
    intro c hc
    have h1 : c.time ≤ b.time := htailmono c hc
    omega
  rw [filter_keep_empty_author, List.length_map, List.countP_append, List.countP_cons]
  have h0 : tail.countP (fun c => decide (ts < c.time)) = 0 :=
    List.countP_eq_zero.mpr (fun a ha => by simpa using htail a ha)
  have hlen : pre.countP (fun c => decide (ts < c.time)) = pre.length :=
    List.countP_eq_length.mpr hpre
  rw [h0, hlen]
  simp [hb2]

/-- Claim C1 (amended), witness: a two-commit history with exactly one
in-window commit yields a one-message sequence. -/
theorem noFilter_length_counts_inWindow_witness :
    ∃ msgs, runSelection "" false 0 [⟨"u", 5, "m1"⟩, ⟨"u", -10, "m2"⟩] = Except.ok msgs ∧
      msgs.length = 1 := by
  obtain ⟨msgs, h1, h2⟩ := noFilter_length_counts_inWindow false 0
    [⟨"u", 5, "m1"⟩, ⟨"u", -10, "m2"⟩] (by decide) (by decide)
    ⟨⟨"u", -10, "m2"⟩, by decide, by decide⟩
  exact ⟨msgs, h1, h2.trans (by decide)⟩

/-- Claim C2 (code bug, evaluated at the failing input): requesting the
directory `work/proj` stores the selected message under the raw key
`work/proj` while the base-name key `proj` — the one the map was initialised
under — stays an empty sequence, so the aggregate has two entries for one
requested directory and the selected message is not under the base name. -/
theorem messages_stored_under_raw_directory_key :
    getBaseDirectoryName "/home/u/work" "work/proj" = "proj"
    ∧ lookupResult (getCommitMessages (fun _ => 60) "" false 20 "/home/u/work"
        [("work/proj", ⟨true, true, [⟨"alice", 50, "did work"⟩, ⟨"alice", -100, "old"⟩]⟩)])
        "proj" = some []
    ∧ lookupResult (getCommitMessages (fun _ => 60) "" false 20 "/home/u/work"
        [("work/proj", ⟨true, true, [⟨"alice", 50, "did work"⟩, ⟨"alice", -100, "old"⟩]⟩)])
        "work/proj" = some ["did work"] := by
  exact ⟨by decide, by decide, by decide⟩

/-- Claim C3 (confirmed): once the walk reaches its first commit not
strictly after the threshold, the output is exactly the filtered rendered
messages of the strictly-in-window prefix — the boundary commit is not
included, and nothing beyond it can influence the result (any two tails give
the same output). -/
theorem early_termination_at_boundary (author : String) (short : Bool) (ts : Int)
    (pre : List Commit) (b : Commit) (tail1 tail2 : List Commit)
    (hpre : ∀ c ∈ pre, ts < c.time) (hb : ¬ ts < b.time) :
    runSelection author short ts (pre ++ b :: tail1) =
      runSelection author short ts (pre ++ b :: tail2)
    ∧ runSelection author short ts (pre ++ b :: tail1) =
      Except.ok ((pre.filter (keepCommit author)).map (renderMsg short)) := by
  constructor
  · rw [runSelection_spec author short ts pre b tail1 hpre hb,
      runSelection_spec author short ts pre b tail2 hpre hb]
  · exact runSelection_spec author short ts pre b tail1 hpre hb

/-- Claim C3, witness: three commits at times 100, 99, 75 against threshold
98 (now minus two hours in hour units) return exactly the first two
messages, and appending a fourth commit beyond the boundary changes
nothing. -/
theorem early_termination_at_boundary_witness :
    runSelection "" false 98 [⟨"u", 100, "m1"⟩, ⟨"u", 99, "m2"⟩, ⟨"u", 75, "m3"⟩] =
      runSelection "" false 98
        [⟨"u", 100, "m1"⟩, ⟨"u", 99, "m2"⟩, ⟨"u", 75, "m3"⟩, ⟨"u", 42, "ignored"⟩]
    ∧ runSelection "" false 98 [⟨"u", 100, "m1"⟩, ⟨"u", 99, "m2"⟩, ⟨"u", 75, "m3"⟩] =
      Except.ok ["m1", "m2"] := by
  have h := early_termination_at_boundary "" false 98
    [⟨"u", 100, "m1"⟩, ⟨"u", 99, "m2"⟩] ⟨"u", 75, "m3"⟩ [] [⟨"u", 42, "ignored"⟩]
    (by decide) (by decide)
  exact ⟨h.1, h.2.trans (by decide)⟩

/-- Claim C4 (as stated, counterexample): with a filter matching no
in-window commit but a walk that never leaves the window, the engine does
fail — it returns the iterator's end-of-history error, not an empty
sequence. -/
theorem author_filter_no_match_error_counterexample :
    containsAuthor ⟨"Alice", 5, "m"⟩ "Bob" = false
    ∧ runSelection "Bob" false 0 [⟨"Alice", 5, "m"⟩] = Except.error GitError.iterEnd
    ∧ runSelection "Bob" false 0 [⟨"Alice", 5, "m"⟩] ≠ Except.ok [] := by
  exact ⟨by decide, by decide, by decide⟩

/-- Claim C4 (amended): for every walk containing at least one commit not
strictly after the threshold, an author filter that occurs in no in-window
commit's author name yields an empty sequence, not an error. -/
theorem author_filter_no_match_empty (author : String) (short : Bool) (ts : Int)
    (walk : List Commit) (ha : author ≠ "")
    (hnomatch : ∀ c ∈ walk, ts < c.time → containsAuthor c author = false)
    (hbound : ∃ c ∈ walk, ¬ ts < c.time) :
    runSelection author short ts walk = Except.ok [] := by
  obtain ⟨x, hx, hpx⟩ := hbound
  obtain ⟨pre, b, tail, heq, hpre, hb⟩ :=
    exists_firstFail (fun c => decide (ts < c.time)) walk ⟨x, hx, by simpa using hpx⟩
  have hpre2 : ∀ c ∈ pre, ts < c.time := fun c hc => by simpa using hpre c hc
  have hb2 : ¬ ts < b.time := by simpa using hb
  subst heq
  rw [runSelection_spec author short ts pre b tail hpre2 hb2,
    filter_keep_eq_contains author ha]
  have hfilter : pre.filter (fun c => containsAuthor c author) = [] := by
    apply List.filter_eq_nil_iff.mpr
    intro a hamem
    have hain : a ∈ pre ++ b :: tail := List.mem_append.mpr (Or.inl hamem)
    simp [hnomatch a hain (hpre2 a hamem)]
  rw [hfilter]
  rfl

/-- Claim C4 (amended), witness: filter `Bob` over authors `Alice` (in
window) and `Carol` (out of window) yields the empty sequence. -/
theorem author_filter_no_match_empty_witness :
    runSelection "Bob" false 0 [⟨"Alice", 5, "m1"⟩, ⟨"Carol", -3, "m2"⟩] =
      Except.ok [] :=
  author_filter_no_match_empty "Bob" false 0
    [⟨"Alice", 5, "m1"⟩, ⟨"Carol", -3, "m2"⟩] (by decide) (by decide)
    ⟨⟨"Carol", -3, "m2"⟩, by decide, by decide⟩

/-- Claim C5 (as stated, counterexample): a walk whose commits are all
strictly inside the window, with a non-empty author filter occurring in
exactly one commit's author name, does not yield that commit's message —
skipping still fetches a successor each round, so the exhausted iterator
makes the engine fail with the end-of-history error instead. -/
theorem author_filter_unique_match_error_counterexample :
    containsAuthor ⟨"TESTUSER", 5, "m1"⟩ "testU" = false
    ∧ containsAuthor ⟨"testUser", 4, "m2"⟩ "testU" = true
    ∧ runSelection "testU" false 0 [⟨"TESTUSER", 5, "m1"⟩, ⟨"testUser", 4, "m2"⟩] =
        Except.error GitError.iterEnd
    ∧ runSelection "testU" false 0 [⟨"TESTUSER", 5, "m1"⟩, ⟨"testUser", 4, "m2"⟩] ≠
        Except.ok ["m2"] := by
  exact ⟨by decide, by decide, by decide, by decide⟩

/-- Claim C5 (amended): with a non-empty author filter, on a walk containing
at least one commit not strictly after the threshold, the in-window prefix
is filtered by case-sensitive substring containment of the filter in the
author name; in particular when exactly one in-window commit matches, the
output is exactly that commit's rendered message, the non-matching
in-window commits being skipped without stopping the walk. -/
theorem author_filter_unique_match (author : String) (short : Bool) (ts : Int)
    (pre : List Commit) (b : Commit) (tail : List Commit) (c0 : Commit)
    (ha : author ≠ "") (hpre : ∀ c ∈ pre, ts < c.time) (hb : ¬ ts < b.time)
    (huniq : pre.filter (fun c => containsAuthor c author) = [c0]) :
    runSelection author short ts (pre ++ b :: tail) =
      Except.ok [renderMsg short c0] := by
  rw [runSelection_spec author short ts pre b tail hpre hb,
    filter_keep_eq_contains author ha, huniq]
  rfl

/-- Claim C5, witness: the filter `testU` matches `testUser` but not
`TESTUSER` (case-sensitive) nor `bob`; with all three in window, only the
matching commit's message is returned, and the non-matching commit walked
first did not stop the iteration. -/
theorem author_filter_unique_match_witness :
    runSelection "testU" false 0
      [⟨"TESTUSER", 5, "m1"⟩, ⟨"testUser", 4, "m2"⟩, ⟨"bob", 3, "m3"⟩, ⟨"x", -5, "old"⟩] =
      Except.ok ["m2"] :=
  (author_filter_unique_match "testU" false 0
    [⟨"TESTUSER", 5, "m1"⟩, ⟨"testUser", 4, "m2"⟩, ⟨"bob", 3, "m3"⟩] ⟨"x", -5, "old"⟩ []
    ⟨"testUser", 4, "m2"⟩ (by decide) (by decide) (by decide) (by decide)).trans (by decide)

/-- Claim C6 (confirmed): with a zero-duration lookback the threshold equals
`now`, and since the comparison is strict `After`, any history whose head
commit is not later than `now` (in particular one whose timestamp equals the
threshold instant) yields an empty sequence, without error. -/
theorem zero_lookback_yields_empty (author : String) (short : Bool) (now : Int)
    (c : Commit) (rest : List Commit) (hc : c.time ≤ now) :
    selectDir author short 0 now ⟨true, true, c :: rest⟩ = Except.ok [] := by
  have h : ¬ (now < c.time) := by omega
  simp [selectDir, runSelection, selectLoop_stop author short now c rest h]

/-- Claim C6, witness: a commit timestamped exactly at the threshold instant
is excluded, so the run yields an empty sequence. -/
theorem zero_lookback_yields_empty_witness :
    selectDir "" true 0 10 ⟨true, true, [⟨"u", 10, "m"⟩]⟩ = Except.ok [] :=
  zero_lookback_yields_empty "" true 10 ⟨"u", 10, "m"⟩ [] (by decide)

/-- Claim C7 (confirmed): truncate mode keeps exactly the text before the
first line break (`"A\nB"` becomes `"A"`, a message with no line break is
unchanged), and the engine renders every included message through that
truncation when `short` is on and verbatim when it is off. -/
theorem truncate_first_line (author : String) (ts : Int) :
    cutNewline "A\nB" = "A"
    ∧ (∀ s : String, (∀ ch ∈ s.data, ch ≠ '\n') → cutNewline s = s)
    ∧ (∀ (pre : List Commit) (b : Commit) (tail : List Commit),
        (∀ c ∈ pre, ts < c.time) → ¬ ts < b.time →
        runSelection author true ts (pre ++ b :: tail) =
          Except.ok ((pre.filter (keepCommit author)).map (fun c => cutNewline c.message))
        ∧ runSelection author false ts (pre ++ b :: tail) =
          Except.ok ((pre.filter (keepCommit author)).map (fun c => c.message))) := by
  refine ⟨by decide, ?_, ?_⟩
  · intro s hs
    have hdata : ∀ l : List Char, (∀ ch ∈ l, ch ≠ '\n') →
        l.takeWhile (fun c => !(c == '\n')) = l := by
      intro l
      induction l with
      | nil => intro _; rfl
      | cons a t ih =>
        intro h
        have ha : (a == '\n') = false := by
          simpa using h a (List.mem_cons_self a t)
        simp [List.takeWhile_cons, ha,
          ih (fun ch hch => h ch (List.mem_cons_of_mem _ hch))]
    cases s with
    | mk data => simp [cutNewline, hdata data hs]
  · intro pre b tail hpre hb
    constructor
    · rw [runSelection_spec author true ts pre b tail hpre hb]
      rfl
    · rw [runSelection_spec author false ts pre b tail hpre hb]
      rfl

/-- Claim C7, witness: `"A\nB"` truncates to `"A"`, a break-free message is
unchanged, and the engine applies truncation exactly when the mode is on. -/
theorem truncate_first_line_witness :
    cutNewline "A\nB" = "A"
    ∧ cutNewline "plain" = "plain"
    ∧ runSelection "" true 0 [⟨"u", 5, "fix\nbody"⟩, ⟨"u", -3, "old"⟩] = Except.ok ["fix"]
    ∧ runSelection "" false 0 [⟨"u", 5, "fix\nbody"⟩, ⟨"u", -3, "old"⟩] =
        Except.ok ["fix\nbody"] := by
  have h := truncate_first_line "" 0
  have h3 := h.2.2 [⟨"u", 5, "fix\nbody"⟩] ⟨"u", -3, "old"⟩ [] (by decide) (by decide)
  exact ⟨h.1, h.2.1 "plain" (by decide), h3.1.trans (by decide), h3.2.trans (by decide)⟩

/-- Claim C8 (as stated, counterexample): the source reads the clock afresh
for each directory, so two identical directories walked under a clock that
advances between the reads are compared against different thresholds and
produce different results, while the specification's once-per-run model
gives both the same result; the two runs are concretely unequal. -/
theorem per_directory_clock_counterexample :
    lookupResult (getCommitMessages (fun i => if i == 0 then 0 else 100) "" false 10 "w"
      [("d1", ⟨true, true, [⟨"u", 50, "m"⟩, ⟨"u", -100, "old"⟩]⟩),
       ("d2", ⟨true, true, [⟨"u", 50, "m"⟩, ⟨"u", -100, "old"⟩]⟩)]) "d1" = some ["m"]
    ∧ lookupResult (getCommitMessages (fun i => if i == 0 then 0 else 100) "" false 10 "w"
      [("d1", ⟨true, true, [⟨"u", 50, "m"⟩, ⟨"u", -100, "old"⟩]⟩),
       ("d2", ⟨true, true, [⟨"u", 50, "m"⟩, ⟨"u", -100, "old"⟩]⟩)]) "d2" = some []
    ∧ lookupResult (getCommitMessagesSpecOnce 0 "" false 10 "w"
      [("d1", ⟨true, true, [⟨"u", 50, "m"⟩, ⟨"u", -100, "old"⟩]⟩),
       ("d2", ⟨true, true, [⟨"u", 50, "m"⟩, ⟨"u", -100, "old"⟩]⟩)]) "d2" = some ["m"]
    ∧ getCommitMessages (fun i => if i == 0 then 0 else 100) "" false 10 "w"
      [("d1", ⟨true, true, [⟨"u", 50, "m"⟩, ⟨"u", -100, "old"⟩]⟩),
       ("d2", ⟨true, true, [⟨"u", 50, "m"⟩, ⟨"u", -100, "old"⟩]⟩)] ≠
      getCommitMessagesSpecOnce 0 "" false 10 "w"
      [("d1", ⟨true, true, [⟨"u", 50, "m"⟩, ⟨"u", -100, "old"⟩]⟩),
       ("d2", ⟨true, true, [⟨"u", 50, "m"⟩, ⟨"u", -100, "old"⟩]⟩)] := by
  refine ⟨by decide, by decide, by decide, fun h => ?_⟩
  exact absurd (congrArg (fun r => lookupResult r "d2") h) (by decide)

/-- Claim C8 (amended): the threshold is computed once per directory, not
once per run — but every commit of a directory is compared against that
directory's single threshold, so whenever the clock reads the same instant
for every directory (and always for a single-directory run) the behaviour
coincides with the specification's run-level fixed threshold. -/
theorem threshold_once_per_directory :
    (∀ (now : Int) (author : String) (short : Bool) (since : Int) (cwd : String)
      (dirs : List (String × Repo)),
      getCommitMessages (fun _ => now) author short since cwd dirs =
        getCommitMessagesSpecOnce now author short since cwd dirs)
    ∧ (∀ (clock : Nat → Int) (author : String) (short : Bool) (since : Int)
        (cwd : String) (d : String) (r : Repo),
        getCommitMessages clock author short since cwd [(d, r)] =
          getCommitMessagesSpecOnce (clock 0) author short since cwd [(d, r)]) := by
  constructor
  · intro now author short since cwd dirs
    exact gcmAux_const_eq_once now author short since cwd dirs 0 (fun _ => none)
  · intro clock author short since cwd d r
    cases h : selectDir author short since (clock 0) r with
    | error e =>
      simp [getCommitMessages, getCommitMessagesAux, getCommitMessagesSpecOnce,
        getCommitMessagesSpecOnceAux, h]
    | ok msgs =>
      simp [getCommitMessages, getCommitMessagesAux, getCommitMessagesSpecOnce,
        getCommitMessagesSpecOnceAux, h]

/-- Claim C9 (confirmed): the first directory that fails to open aborts
`getRepositories` with the open error, and the first directory whose head,
log or walk fails aborts `getCommitMessages` with exactly that error — no
mapping, hence no partial per-directory results, is returned. -/
theorem run_fails_on_directory_error :
    (∀ (pre rest : List (Option Repo)), (∀ x ∈ pre, x ≠ none) →
      getRepositories (pre ++ none :: rest) = Except.error GitError.openFail)
    ∧ (∀ (now : Int) (author : String) (short : Bool) (since : Int) (cwd : String)
        (pre : List (String × Repo)) (d : String) (r : Repo)
        (rest : List (String × Repo)) (e : GitError),
        (∀ x ∈ pre, ∃ msgs, selectDir author short since now x.2 = Except.ok msgs) →
        selectDir author short since now r = Except.error e →
        getCommitMessages (fun _ => now) author short since cwd (pre ++ (d, r) :: rest) =
          Except.error e) := by
  constructor
  · exact getRepositories_firstNone
  · intro now author short since cwd pre d r rest e hpre hfail
    exact gcmAux_error_const now author short since cwd pre 0 (fun _ => none)
      d r rest e hpre hfail

/-- Claim C9, witness: an unopenable second directory fails the batch open,
and a second directory with a broken head reference fails the whole message
run even though the first directory had selected a message. -/
theorem run_fails_on_directory_error_witness :
    getRepositories [some ⟨true, true, []⟩, none] = Except.error GitError.openFail
    ∧ getCommitMessages (fun _ => 10) "" false 5 "w"
        [("a", ⟨true, true, [⟨"u", 8, "m"⟩, ⟨"u", -50, "old"⟩]⟩), ("b", ⟨false, true, []⟩)] =
      Except.error GitError.headFail := by
  constructor
  · exact run_fails_on_directory_error.1 [some ⟨true, true, []⟩] [] (by decide)
  · have hpre : ∀ x ∈ [("a", (⟨true, true, [⟨"u", 8, "m"⟩, ⟨"u", -50, "old"⟩]⟩ : Repo))],
        ∃ msgs, selectDir "" false 5 10 x.2 = Except.ok msgs := by
      intro x hx
      rw [List.mem_singleton] at hx
      subst hx
      exact ⟨["m"], by decide⟩
    exact run_fails_on_directory_error.2 10 "" false 5 "w"
      [("a", ⟨true, true, [⟨"u", 8, "m"⟩, ⟨"u", -50, "old"⟩]⟩)] "b" ⟨false, true, []⟩ [] 
      GitError.headFail hpre (by decide)

/-- Claim C10 (confirmed): because the loop fetches the successor before
deciding about the current commit, a walk exhausted while still strictly in
the window fails with the iterator's end-of-history error; at the run level
this aborts `getCommitMessages`, discarding every directory's already
collected messages. -/
theorem exhausted_walk_discards_all :
    (∀ (author : String) (short : Bool) (ts : Int) (walk : List Commit),
      walk ≠ [] → (∀ c ∈ walk, ts < c.time) →
      runSelection author short ts walk = Except.error GitError.iterEnd)
    ∧ (∀ (now : Int) (author : String) (short : Bool) (since : Int) (cwd : String)
        (pre : List (String × Repo)) (d : String) (r : Repo) (rest : List (String × Repo)),
        (∀ x ∈ pre, ∃ msgs, selectDir author short since now x.2 = Except.ok msgs) →
        r.headOk = true → r.logOk = true → r.walk ≠ [] →
        (∀ c ∈ r.walk, now - since < c.time) →
        getCommitMessages (fun _ => now) author short since cwd (pre ++ (d, r) :: rest) =
          Except.error GitError.iterEnd) := by
  constructor
  · exact runSelection_allIn
  · intro now author short since cwd pre d r rest hpre hh hl hne hall
    exact gcmAux_error_const now author short since cwd pre 0 (fun _ => none)
      d r rest GitError.iterEnd hpre (selectDir_allIn author short since now r hh hl hne hall)

/-- Claim C10, witness: a second directory whose single commit is strictly
inside the window makes the run return the end-of-history error, discarding
the message already collected for the first directory. -/
theorem exhausted_walk_discards_all_witness :
    runSelection "" false 0 [⟨"u", 5, "m"⟩] = Except.error GitError.iterEnd
    ∧ getCommitMessages (fun _ => 10) "" false 5 "w"
        [("a", ⟨true, true, [⟨"u", 8, "keep"⟩, ⟨"u", -50, "old"⟩]⟩),
         ("b", ⟨true, true, [⟨"u", 9, "young"⟩]⟩)] =
      Except.error GitError.iterEnd := by
  constructor
  · exact exhausted_walk_discards_all.1 "" false 0 [⟨"u", 5, "m"⟩] (by decide) (by decide)
  · have hpre : ∀ x ∈ [("a", (⟨true, true, [⟨"u", 8, "keep"⟩, ⟨"u", -50, "old"⟩]⟩ : Repo))],
        ∃ msgs, selectDir "" false 5 10 x.2 = Except.ok msgs := by
      intro x hx
      rw [List.mem_singleton] at hx
      subst hx
      exact ⟨["keep"], by decide⟩
    exact exhausted_walk_discards_all.2 10 "" false 5 "w"
      [("a", ⟨true, true, [⟨"u", 8, "keep"⟩, ⟨"u", -50, "old"⟩]⟩)] "b"
      ⟨true, true, [⟨"u", 9, "young"⟩]⟩ [] hpre (by decide) (by decide) (by decide)
      (by decide)
